import Mathlib

/-!
Verification development for the chat server core (parser, registry).

The Rust sources are embedded shallowly:
- a line of text is its list of characters (`Str`);
- `HashMap` is an association list with overwrite-on-insert semantics;
- `HashSet` is a list used up to membership, with dedup insert and filter
  removal;
- an unbounded mpsc channel is a `closed` flag (receiver dropped) plus the
  list of messages enqueued so far;
- a Rust function that can panic is embedded with an `Option` result, where
  `none` is the panic.
-/

namespace Chat

/-- A line of text, as its list of characters. -/
abbrev Str := List Char

/-- Character class [A-Za-z0-9_-] used by both the name and room regexes. -/
def wordChar (c : Char) : Bool :=
  c.isAlpha || c.isDigit || c == '-' || c == '_'

/-- Embedding of NAME_REGEX from src/parser.rs. -/
def nameMatch : Str → Bool
  | c :: rest =>
      c == '@' && rest.all wordChar &&
        decide (3 ≤ rest.length) && decide (rest.length ≤ 20)
  | [] => false

/-- Embedding of ROOM_REGEX from src/parser.rs. -/
def roomMatch : Str → Bool
  | c :: rest =>
      c == '#' && rest.all wordChar &&
        decide (3 ≤ rest.length) && decide (rest.length ≤ 20)
  | [] => false

/-- Embedding of the Rust split on a single space character: every
occurrence of the separator produces a boundary, so adjacent separators
produce empty pieces, exactly as input.split(' ') does. -/
def splitSp : Str → List Str
  | [] => [[]]
  | c :: rest =>
    if c = ' ' then [] :: splitSp rest
    else
      match splitSp rest with
      | [] => [[c]]
      | p :: ps => (c :: p) :: ps

/-- Embedding of joining pieces with a single space, as pieces.join(" "). -/
def joinSp : List Str → Str
  | [] => []
  | [p] => p
  | p :: q :: ps => p ++ ' ' :: joinSp (q :: ps)

/-- Command tags, from src/parser.rs. -/
inductive Command where
  | Name | Join | Leave | Say | Users | Rooms | Pong
deriving DecidableEq, Repr

/-- Parse error kinds, from src/parser.rs. -/
inductive ParseError where
  | BadNameFormat | BadRoomNameFormat | BadArguments
deriving DecidableEq, Repr

/-- Messages that the clients send to the server, from src/messages.rs. -/
inductive IncomingMsg where
  | Name (n : Str)
  | Join (r : Str)
  | Leave (r : Str)
  | SayRoom (r t : Str)
  | SayUser (n t : Str)
  | Users (r : Str)
  | Rooms
  | Quit
  | Pong
deriving DecidableEq, Repr

/-- Result of parsing one line, from src/parser.rs. -/
inductive ParsedAction where
  | None
  | Process (m : IncomingMsg)
  | Error (c : Command) (e : ParseError)
deriving DecidableEq, Repr

/-- Dispatch of parse_incoming on the list of pieces (the Rust code indexes
into the pieces vector; the first piece always exists).  The result is
wrapped in `Option`: `none` models the panic that the Rust code performs
when it unwraps the first character of an empty SAY target token. -/
def parsePieces : List Str → Option ParsedAction
  | [] => some ParsedAction.None
  | p0 :: rest =>
      if p0 = "QUIT".data then some (.Process .Quit)
      else if p0 = "NAME".data then
        match rest with
        | [p1] =>
          if nameMatch p1 then some (.Process (.Name p1))
          else some (.Error .Name .BadNameFormat)
        | _ => some (.Error .Name .BadArguments)
      else if p0 = "JOIN".data then
        match rest with
        | [p1] =>
          if roomMatch p1 then some (.Process (.Join p1))
          else some (.Error .Join .BadRoomNameFormat)
        | _ => some (.Error .Join .BadArguments)
      else if p0 = "LEAVE".data then
        match rest with
        | [p1] =>
          if roomMatch p1 then some (.Process (.Leave p1))
          else some (.Error .Leave .BadRoomNameFormat)
        | _ => some (.Error .Leave .BadArguments)
      else if p0 = "SAY".data then
        match rest with
        | p1 :: p2 :: more =>
          if roomMatch p1 then some (.Process (.SayRoom p1 (joinSp (p2 :: more))))
          else if nameMatch p1 then some (.Process (.SayUser p1 (joinSp (p2 :: more))))
          else
            match p1 with
            | [] => none
            | c :: _ =>
              if c = '#' then some (.Error .Say .BadRoomNameFormat)
              else if c = '@' then some (.Error .Say .BadNameFormat)
              else some (.Error .Say .BadArguments)
        | _ => some (.Error .Say .BadArguments)
      else if p0 = "ROOMS".data then
        match rest with
        | [] => some (.Process .Rooms)
        | _ => some (.Error .Rooms .BadArguments)
      else if p0 = "USERS".data then
        match rest with
        | [p1] =>
          if roomMatch p1 then some (.Process (.Users p1))
          else some (.Error .Users .BadRoomNameFormat)
        | _ => some (.Error .Users .BadArguments)
      else if p0 = "PONG".data then
        match rest with
        | [] => some (.Process .Pong)
        | _ => some (.Error .Pong .BadArguments)
      else some ParsedAction.None

/-- Embedding of parse_incoming from src/parser.rs. -/
def parse_incoming (input : Str) : Option ParsedAction :=
  if input = [] then some ParsedAction.None
  else parsePieces (splitSp input)

/-- Embedding of the Display instance for IncomingMsg from src/messages.rs. -/
def IncomingMsg.fmt : IncomingMsg → Str
  | .Name n => "NAME ".data ++ n
  | .Join r => "JOIN ".data ++ r
  | .Leave r => "LEAVE ".data ++ r
  | .SayRoom r t => "SAY ".data ++ r ++ ' ' :: t
  | .SayUser n t => "SAY ".data ++ n ++ ' ' :: t
  | .Users r => "USERS ".data ++ r
  | .Rooms => "ROOMS".data
  | .Quit => "QUIT".data
  | .Pong => "PONG".data

/-- Validity of an incoming message: the name or room field matches its
regex.  The message payload of SAY is unconstrained (any characters that
fit on one line). -/
def IncomingMsg.valid : IncomingMsg → Bool
  | .Name n => nameMatch n
  | .Join r => roomMatch r
  | .Leave r => roomMatch r
  | .SayRoom r _ => roomMatch r
  | .SayUser n _ => nameMatch n
  | .Users r => roomMatch r
  | .Rooms => true
  | .Quit => true
  | .Pong => true

/-! Registry embedding, from src/server_state.rs.

A HashMap is embedded as an association list whose insert first erases the
key, so lookups behave exactly like map lookups; a HashSet of names is a
list used up to membership, with dedup insert and filter removal. -/

/-- Messages that the server sends to clients, from src/messages.rs. -/
inductive OutgoingMsg where
  | Ping
  | Connected
  | Registered
  | SaidUser (sender text : String)
  | SaidRoom (room sender text : String)
  | Room (r : String)
  | User (n : String)
  | Joined (r n : String)
  | Left (r n : String)
deriving DecidableEq, Repr

/-- Lookup in an association-list map, as HashMap get. -/
def getK {α : Type} : List (String × α) → String → Option α
  | [], _ => none
  | (k, v) :: rest, key => if key = k then some v else getK rest key

/-- Removal of a key, as HashMap remove (the returned value is read with
getK first where the code needs it). -/
def eraseK {α : Type} (m : List (String × α)) (key : String) : List (String × α) :=
  m.filter (fun p => decide (p.1 ≠ key))

/-- Insertion, as HashMap insert: the key is overwritten if present. -/
def insertK {α : Type} (m : List (String × α)) (key : String) (v : α) : List (String × α) :=
  (key, v) :: eraseK m key

/-- Insertion into a set of names, as HashSet insert. -/
def insertS (x : String) (l : List String) : List String :=
  if x ∈ l then l else x :: l

/-- Removal from a set of names, as HashSet remove. -/
def removeS (x : String) (l : List String) : List String :=
  l.filter (fun y => decide (y ≠ x))

/-- Embedding of User from src/server_state.rs.  The unbounded sender is
embedded by the state of its channel: `closed` is true when the receiving
half has been dropped, and `mailbox` lists the messages enqueued so far. -/
structure User where
  closed : Bool
  mailbox : List OutgoingMsg
  rooms : List String
deriving DecidableEq, Repr

/-- Embedding of User::new: a fresh channel in the given closed state and
no rooms. -/
def User.new (closed : Bool) : User :=
  { closed := closed, mailbox := [], rooms := [] }

/-- Embedding of User::send: enqueue succeeds exactly when the receiver has
not been dropped; on success the message is appended to the mailbox. -/
def User.send (u : User) (m : OutgoingMsg) : Option User :=
  if u.closed then none
  else some { u with mailbox := u.mailbox ++ [m] }

/-- Embedding of Room from src/server_state.rs. -/
structure Room where
  users : List String
deriving DecidableEq, Repr

/-- Embedding of ServerError from src/server_state.rs. -/
inductive ServerError where
  | RoomUnknown (r : String)
  | UserAlreadyExists (n : String)
  | UserNotInRoom (n r : String)
  | UserUnknown (n : String)
deriving DecidableEq, Repr

/-- Embedding of ServerState from src/server_state.rs. -/
structure ServerState where
  users : List (String × User)
  rooms : List (String × Room)
deriving DecidableEq, Repr

/-- Embedding of ServerState::new. -/
def ServerState.new : ServerState := ⟨[], []⟩

/-- Embedding of ServerState::add_user.  Every mutating operation returns
the state after the call together with the error, if any (`none` is Ok). -/
def ServerState.add_user (S : ServerState) (name : String) (user : User) :
    ServerState × Option ServerError :=
  if (getK S.users name).isSome then (S, some (.UserAlreadyExists name))
  else ({ S with users := insertK S.users name user }, none)

/-- Embedding of ServerState::leave_room. -/
def ServerState.leave_room (S : ServerState) (room_name user_name : String) :
    ServerState × Option ServerError :=
  match getK S.rooms room_name with
  | some room =>
    if user_name ∈ room.users then
      let members := removeS user_name room.users
      let rooms' := if members = [] then eraseK S.rooms room_name
                    else insertK S.rooms room_name ⟨members⟩
      let users' := match getK S.users user_name with
                    | some u => insertK S.users user_name { u with rooms := removeS room_name u.rooms }
                    | none => S.users
      (⟨users', rooms'⟩, none)
    else (S, some (.UserNotInRoom user_name room_name))
  | none => (S, some (.RoomUnknown room_name))

/-- The loop in ServerState::remove_user: leave each room in the list in
turn, stopping at the first error as the question-mark operator does. -/
def leaveRooms (S : ServerState) (name : String) : List String → ServerState × Option ServerError
  | [] => (S, none)
  | r :: rest =>
    match S.leave_room r name with
    | (S', none) => leaveRooms S' name rest
    | (S', some e) => (S', some e)

/-- Embedding of ServerState::remove_user: take the user record out of the
map, then leave each room it listed. -/
def ServerState.remove_user (S : ServerState) (name : String) :
    ServerState × Option ServerError :=
  match getK S.users name with
  | some user => leaveRooms { S with users := eraseK S.users name } name user.rooms
  | none => (S, some (.UserUnknown name))

/-- Embedding of ServerState::join_room. -/
def ServerState.join_room (S : ServerState) (room_name user_name : String) :
    ServerState × Option ServerError :=
  if (getK S.users user_name).isNone then (S, some (.UserUnknown user_name))
  else
    let rooms' := match getK S.rooms room_name with
      | some room => insertK S.rooms room_name ⟨insertS user_name room.users⟩
      | none => insertK S.rooms room_name ⟨insertS user_name []⟩
    let users' := match getK S.users user_name with
      | some u => insertK S.users user_name { u with rooms := insertS room_name u.rooms }
      | none => S.users
    (⟨users', rooms'⟩, none)

/-- The loop in ServerState::rename_user: in each room of the list, remove
the old name and add the new name, skipping rooms that are not in the map. -/
def renameRooms (rooms : List (String × Room)) (old_name new_name : String) :
    List String → List (String × Room)
  | [] => rooms
  | r :: rest =>
    let rooms' := match getK rooms r with
      | some room => insertK rooms r ⟨insertS new_name (removeS old_name room.users)⟩
      | none => rooms
    renameRooms rooms' old_name new_name rest

/-- Embedding of ServerState::rename_user. -/
def ServerState.rename_user (S : ServerState) (old_name new_name : String) :
    ServerState × Option ServerError :=
  match getK S.users old_name with
  | some user =>
      (⟨insertK (eraseK S.users old_name) new_name user,
        renameRooms S.rooms old_name new_name user.rooms⟩, none)
  | none => (S, some (.UserUnknown old_name))

/-- Embedding of ServerState::rooms: the list of room names. -/
def ServerState.room_names (S : ServerState) : List String :=
  S.rooms.map (fun p => p.1)

/-- Embedding of ServerState::users (the member-list query, renamed because
the field is already called users).  It takes the state by shared reference
in the source, so there is no output state. -/
def ServerState.users_of (S : ServerState) (room_name : String) :
    Except ServerError (List String) :=
  match getK S.rooms room_name with
  | some room => .ok room.users
  | none => .error (.RoomUnknown room_name)

/-- Embedding of ServerState::say_to_user.  The outer `Option` models the
panic: the code unwraps the result of the send, so a closed target mailbox
aborts instead of returning. -/
def ServerState.say_to_user (S : ServerState) (from_user to_user : String) (message : String) :
    Option (ServerState × Option ServerError) :=
  match getK S.users to_user with
  | some target =>
    match target.send (.SaidUser from_user message) with
    | some target' => some ({ S with users := insertK S.users to_user target' }, none)
    | none => none
  | none => some (S, some (.UserUnknown to_user))

/-- The loop in ServerState::say_to_room: send to every member other than
the sender that has a user record, unwrapping each send (so a closed
mailbox is a panic, embedded as `none`). -/
def sendRoomMsg (users : List (String × User)) (user_name room_name message : String) :
    List String → Option (List (String × User))
  | [] => some users
  | m :: rest =>
    if m = user_name then sendRoomMsg users user_name room_name message rest
    else
      match getK users m with
      | some u =>
        match u.send (.SaidRoom room_name user_name message) with
        | some u' => sendRoomMsg (insertK users m u') user_name room_name message rest
        | none => none
      | none => sendRoomMsg users user_name room_name message rest

/-- Embedding of ServerState::say_to_room. -/
def ServerState.say_to_room (S : ServerState) (user_name room_name : String) (message : String) :
    Option (ServerState × Option ServerError) :=
  match getK S.rooms room_name with
  | some room =>
    match sendRoomMsg S.users user_name room_name message room.users with
    | some users' => some ({ S with users := users' }, none)
    | none => none
  | none => some (S, some (.RoomUnknown room_name))

/-! Invariants of the registry, and reachability by registry operations. -/

/-- The set of rooms recorded on the user record of u, empty when u is not
in the users map. -/
def userRooms (S : ServerState) (u : String) : List String :=
  match getK S.users u with
  | some rec => rec.rooms
  | none => []

/-- The member set of room r, empty when r is not in the rooms map. -/
def memOf (S : ServerState) (r : String) : List String :=
  match getK S.rooms r with
  | some room => room.users
  | none => []

/-- Bidirectional membership: r is on the record of u exactly when r is a
room and u is among its members.  (When u is absent its recorded set is
empty and when r is absent its member set is empty, so both sides already
say that u exists, respectively that r exists.) -/
def Inv (S : ServerState) : Prop :=
  ∀ u r, r ∈ userRooms S u ↔ u ∈ memOf S r

/-- Well-formedness of the set embedding: the room set of every user record
and the member set of every room are without duplicates.  In the source
these are HashSet values, so this holds for every Rust state by
construction. -/
def WF (S : ServerState) : Prop :=
  (∀ u rec, getK S.users u = some rec → rec.rooms.Nodup) ∧
  (∀ r room, getK S.rooms r = some room → room.users.Nodup)

/-- Executable check for `WF` on a concrete state. -/
def wfCheckB (S : ServerState) : Bool :=
  (S.users.all fun p => decide p.2.rooms.Nodup) &&
  (S.rooms.all fun q => decide q.2.users.Nodup)

/-- No room in the rooms map has an empty member set. -/
def NoEmptyRooms (S : ServerState) : Prop :=
  ∀ r room, getK S.rooms r = some room → room.users ≠ []

/-- Executable check for `Inv` on a concrete state. -/
def invCheckB (S : ServerState) : Bool :=
  (S.users.all fun p => p.2.rooms.all fun r =>
    match getK S.rooms r with
    | some room => decide (p.1 ∈ room.users)
    | none => false) &&
  (S.rooms.all fun q => q.2.users.all fun m =>
    match getK S.users m with
    | some rec => decide (q.1 ∈ rec.rooms)
    | none => false)

/-- States reachable from the empty registry by the five mutating registry
operations, with users added fresh as the connection handler does
(User::new with an empty room set). -/
inductive Reachable : ServerState → Prop where
  | init : Reachable ServerState.new
  | add (S : ServerState) (n : String) (c : Bool) :
      Reachable S → Reachable (S.add_user n (User.new c)).1
  | remove (S : ServerState) (n : String) :
      Reachable S → Reachable (S.remove_user n).1
  | join (S : ServerState) (r n : String) :
      Reachable S → Reachable (S.join_room r n).1
  | leave (S : ServerState) (r n : String) :
      Reachable S → Reachable (S.leave_room r n).1
  | rename (S : ServerState) (a b : String) :
      Reachable S → Reachable (S.rename_user a b).1

/-- Reachability as above, but every rename has a target name that is not
already in the users map (the duplicate-target check the specification
prescribes). -/
inductive ReachableChecked : ServerState → Prop where
  | init : ReachableChecked ServerState.new
  | add (S : ServerState) (n : String) (c : Bool) :
      ReachableChecked S → ReachableChecked (S.add_user n (User.new c)).1
  | remove (S : ServerState) (n : String) :
      ReachableChecked S → ReachableChecked (S.remove_user n).1
  | join (S : ServerState) (r n : String) :
      ReachableChecked S → ReachableChecked (S.join_room r n).1
  | leave (S : ServerState) (r n : String) :
      ReachableChecked S → ReachableChecked (S.leave_room r n).1
  | rename (S : ServerState) (a b : String) :
      ReachableChecked S → getK S.users b = none →
      ReachableChecked (S.rename_user a b).1

/-- Whether the record held in an optional users-map entry has a dropped
receiver; an absent entry counts as not closed. -/
def optClosed : Option User → Bool
  | some urec => urec.closed
  | none => false

/-- Concrete state: the user robert alone in one room. -/
def exState1 : ServerState :=
  ((ServerState.new.add_user "@robert" (User.new false)).1.join_room "#testroom" "@robert").1

/-- Concrete state: one user whose mailbox receiver has been dropped. -/
def closedUserState : ServerState :=
  (ServerState.new.add_user "@bbb" (User.new true)).1

/-- Concrete state: an open user and a closed user sharing one room. -/
def closedRoomState : ServerState :=
  ((((ServerState.new.add_user "@aaa" (User.new false)).1.add_user
      "@bbb" (User.new true)).1.join_room "#rrr" "@aaa").1.join_room "#rrr" "@bbb").1

/-- Concrete state: the user aaa with no rooms and the user bbb in room
rrr, before a rename of aaa onto the taken name bbb. -/
def preRenameState : ServerState :=
  (((ServerState.new.add_user "@aaa" (User.new false)).1.add_user
      "@bbb" (User.new false)).1.join_room "#rrr" "@bbb").1

/-- Concrete state after renaming aaa onto the taken name bbb. -/
def renameCollisionState : ServerState :=
  (preRenameState.rename_user "@aaa" "@bbb").1

/-- Concrete state after a rename onto a fresh name. -/
def checkedRenameState : ServerState :=
  (exState1.rename_user "@robert" "@littleb1t").1

/-- Concrete state: three open users all in one room. -/
def sayRoomState : ServerState :=
  ((((((ServerState.new.add_user "@kelsey" (User.new false)).1.add_user
      "@robert" (User.new false)).1.add_user "@dave" (User.new false)).1.join_room
      "#testroom" "@kelsey").1.join_room "#testroom" "@robert").1.join_room
      "#testroom" "@dave").1

/-- Concrete state: one user whose own receiver has been dropped. -/
def selfClosedState : ServerState :=
  (ServerState.new.add_user "@aaa" (User.new true)).1

/-- Concrete state: one user with an open mailbox. -/
def selfOpenState : ServerState :=
  (ServerState.new.add_user "@aaa" (User.new false)).1

section SanityExamples

example : parse_incoming "QUIT".data = some (.Process .Quit) := by decide
example : parse_incoming "".data = some ParsedAction.None := by decide
example : parse_incoming "NAME @robert".data
    = some (.Process (.Name "@robert".data)) := by decide
example : parse_incoming "NAME @robert Steve".data
    = some (.Error .Name .BadArguments) := by decide
example : parse_incoming "SAY #room341 hello everyone!".data
    = some (.Process (.SayRoom "#room341".data "hello everyone!".data)) := by decide
example : parse_incoming "SAY @kelsey hi kelsey :)".data
    = some (.Process (.SayUser "@kelsey".data "hi kelsey :)".data)) := by decide
example : parse_incoming "SAY @friend% hi there friend!".data
    = some (.Error .Say .BadNameFormat) := by decide
example : parse_incoming "SAY ".data = some (.Error .Say .BadArguments) := by decide
example : parse_incoming "SAY  x".data = none := by decide
example : parse_incoming "quit".data = some ParsedAction.None := by decide

example : (ServerState.new.add_user "@robert" (User.new false)).2 = none := by decide
example : ((ServerState.new.add_user "@robert" (User.new false)).1.add_user
    "@robert" (User.new false)).2 = some (.UserAlreadyExists "@robert") := by decide
example : getK exState1.rooms "#testroom" = some ⟨["@robert"]⟩ := by decide
example : userRooms exState1 "@robert" = ["#testroom"] := by decide
example : (exState1.leave_room "#testroom" "@robert").2 = none := by decide
example : getK (exState1.leave_room "#testroom" "@robert").1.rooms "#testroom" = none := by
  decide
example : (exState1.leave_room "#fakeroom" "@robert").2
    = some (.RoomUnknown "#fakeroom") := by decide
example : (exState1.leave_room "#testroom" "@kelsey").2
    = some (.UserNotInRoom "@kelsey" "#testroom") := by decide
example : getK (exState1.remove_user "@robert").1.rooms "#testroom" = none := by decide
example : getK (exState1.rename_user "@robert" "@littleb1t").1.users "@robert" = none := by
  decide
example : memOf (exState1.rename_user "@robert" "@littleb1t").1 "#testroom"
    = ["@littleb1t"] := by decide
example : userRooms (exState1.rename_user "@robert" "@littleb1t").1 "@littleb1t"
    = ["#testroom"] := by decide
example : invCheckB exState1 = true := by decide

end SanityExamples

/-! Lemmas about the map and set embeddings. -/

theorem getK_eraseK {α : Type} (m : List (String × α)) (k key : String) :
    getK (eraseK m k) key = if key = k then none else getK m key := by
  induction m with
  | nil => simp [getK, eraseK]
  | cons p rest ih =>
    rcases p with ⟨pk, pv⟩
    by_cases hp : pk = k
    · subst hp
      have he : eraseK ((pk, pv) :: rest) pk = eraseK rest pk := by
        simp [eraseK]
      rw [he, ih]
      by_cases hk : key = pk
      · simp [hk]
      · simp [hk, getK]
    · have he : eraseK ((pk, pv) :: rest) k = (pk, pv) :: eraseK rest k := by
        simp [eraseK, hp]
      rw [he]
      by_cases hk : key = pk
      · subst hk
        have hkk : key ≠ k := hp
        simp [getK, hkk]
      · simp [getK, hk, ih]

theorem getK_insertK {α : Type} (m : List (String × α)) (k : String) (v : α) (key : String) :
    getK (insertK m k v) key = if key = k then some v else getK m key := by
  simp only [insertK, getK]
  rcases eq_or_ne key k with h | h
  · simp [h]
  · simp [h, getK_eraseK]

theorem getK_mem {α : Type} {m : List (String × α)} {k : String} {v : α}
    (h : getK m k = some v) : (k, v) ∈ m := by
  induction m with
  | nil => simp [getK] at h
  | cons p rest ih =>
    rcases p with ⟨pk, pv⟩
    by_cases hk : k = pk
    · subst hk
      simp [getK] at h
      simp [h]
    · simp [getK, hk] at h
      simp [ih h]

@[simp]
theorem mem_insertS {x y : String} {l : List String} :
    y ∈ insertS x l ↔ y = x ∨ y ∈ l := by
  unfold insertS
  by_cases hx : x ∈ l
  · simp only [if_pos hx]
    constructor
    · exact fun h => Or.inr h
    · rintro (rfl | h)
      · exact hx
      · exact h
  · simp [if_neg hx]

@[simp]
theorem mem_removeS {x y : String} {l : List String} :
    y ∈ removeS x l ↔ y ∈ l ∧ y ≠ x := by
  simp [removeS]

theorem insertS_ne_nil {x : String} {l : List String} : insertS x l ≠ [] := by
  unfold insertS
  by_cases hx : x ∈ l
  · simp only [if_pos hx]
    rintro rfl
    simp at hx
  · simp [if_neg hx]

theorem nodup_insertS {x : String} {l : List String} (h : l.Nodup) :
    (insertS x l).Nodup := by
  unfold insertS
  by_cases hx : x ∈ l
  · simpa [if_pos hx]
  · simp [if_neg hx, h, hx]

theorem nodup_removeS {x : String} {l : List String} (h : l.Nodup) :
    (removeS x l).Nodup :=
  h.filter _

theorem not_mem_removeS {x : String} {l : List String} : x ∉ removeS x l := by
  simp

/-- Soundness of the executable bidirectional-membership check. -/
theorem invCheckB_sound {S : ServerState} (h : invCheckB S = true) : Inv S := by
  unfold invCheckB at h
  rw [Bool.and_eq_true] at h
  obtain ⟨h1, h2⟩ := h
  rw [List.all_eq_true] at h1 h2
  intro u r
  constructor
  · intro hur
    unfold userRooms at hur
    rcases hgu : getK S.users u with _ | rec
    · rw [hgu] at hur
      simp at hur
    · rw [hgu] at hur
      have hmem := getK_mem hgu
      have := h1 _ hmem
      rw [List.all_eq_true] at this
      have := this r hur
      unfold memOf
      rcases hgr : getK S.rooms r with _ | room
      · rw [hgr] at this
        simp at this
      · rw [hgr] at this
        simpa using this
  · intro hmr
    unfold memOf at hmr
    rcases hgr : getK S.rooms r with _ | room
    · rw [hgr] at hmr
      simp at hmr
    · rw [hgr] at hmr
      have hmem := getK_mem hgr
      have := h2 _ hmem
      rw [List.all_eq_true] at this
      have := this u hmr
      unfold userRooms
      rcases hgu : getK S.users u with _ | rec
      · rw [hgu] at this
        simp at this
      · rw [hgu] at this
        simpa using this

/-! Branch equations for the registry operations, and preservation of the
invariants by each operation. -/

theorem add_user_eq_some {S : ServerState} {n : String} {u urec : User}
    (hn : getK S.users n = some urec) :
    S.add_user n u = (S, some (.UserAlreadyExists n)) := by
  simp [ServerState.add_user, hn]

theorem add_user_eq_none {S : ServerState} {n : String} {u : User}
    (hn : getK S.users n = none) :
    S.add_user n u = ({ S with users := insertK S.users n u }, none) := by
  simp [ServerState.add_user, hn]

theorem join_room_eq_nouser {S : ServerState} {r0 n0 : String}
    (hn : getK S.users n0 = none) :
    S.join_room r0 n0 = (S, some (.UserUnknown n0)) := by
  simp [ServerState.join_room, hn]

theorem join_room_eq_ok {S : ServerState} {r0 n0 : String} {urec : User}
    (hn : getK S.users n0 = some urec) :
    S.join_room r0 n0 =
      (⟨insertK S.users n0 { urec with rooms := insertS r0 urec.rooms },
        insertK S.rooms r0 ⟨insertS n0 (memOf S r0)⟩⟩, none) := by
  rcases hr : getK S.rooms r0 with _ | room
  · simp [ServerState.join_room, hn, hr, memOf]
  · simp [ServerState.join_room, hn, hr, memOf]

theorem join_room_userRooms {S : ServerState} {r0 n0 : String} {urec : User}
    (hn : getK S.users n0 = some urec) (u : String) :
    userRooms (S.join_room r0 n0).1 u =
      if u = n0 then insertS r0 urec.rooms else userRooms S u := by
  rw [join_room_eq_ok hn]
  by_cases hu : u = n0
  · simp [userRooms, getK_insertK, hu]
  · simp [userRooms, getK_insertK, hu]

theorem join_room_memOf {S : ServerState} {r0 n0 : String} {urec : User}
    (hn : getK S.users n0 = some urec) (r : String) :
    memOf (S.join_room r0 n0).1 r =
      if r = r0 then insertS n0 (memOf S r0) else memOf S r := by
  rw [join_room_eq_ok hn]
  by_cases hr : r = r0
  · simp [memOf, getK_insertK, hr]
  · simp [memOf, getK_insertK, hr]

theorem add_user_inv {S : ServerState} {n : String} {c : Bool} (hInv : Inv S) :
    Inv (S.add_user n (User.new c)).1 := by
  rcases hn : getK S.users n with _ | urec
  · rw [add_user_eq_none hn]
    intro u r
    have hm : memOf { S with users := insertK S.users n (User.new c) } r = memOf S r := rfl
    by_cases hu : u = n
    · subst hu
      have h1 : userRooms { S with users := insertK S.users u (User.new c) } u = [] := by
        simp [userRooms, getK_insertK, User.new]
      rw [hm, h1]
      simp only [List.not_mem_nil, false_iff]
      intro hc
      have := (hInv u r).mpr hc
      simp [userRooms, hn] at this
    · have h1 : userRooms { S with users := insertK S.users n (User.new c) } u
          = userRooms S u := by
        simp [userRooms, getK_insertK, hu]
      rw [hm, h1]
      exact hInv u r
  · rw [add_user_eq_some hn]
    exact hInv

theorem add_user_wf {S : ServerState} {n : String} {c : Bool} (hwf : WF S) :
    WF (S.add_user n (User.new c)).1 := by
  rcases hn : getK S.users n with _ | urec
  · rw [add_user_eq_none hn]
    refine ⟨fun u rec hg => ?_, hwf.2⟩
    rw [getK_insertK] at hg
    by_cases hu : u = n
    · rw [if_pos hu] at hg
      cases hg
      simp [User.new]
    · rw [if_neg hu] at hg
      exact hwf.1 u rec hg
  · rw [add_user_eq_some hn]
    exact hwf

theorem add_user_noempty {S : ServerState} {n : String} {u : User}
    (h : NoEmptyRooms S) : NoEmptyRooms (S.add_user n u).1 := by
  rcases hn : getK S.users n with _ | urec
  · rw [add_user_eq_none hn]
    exact h
  · rw [add_user_eq_some hn]
    exact h

theorem join_room_inv {S : ServerState} {r0 n0 : String} (hInv : Inv S) :
    Inv (S.join_room r0 n0).1 := by
  rcases hn : getK S.users n0 with _ | urec
  · rw [join_room_eq_nouser hn]
    exact hInv
  · intro u r
    rw [join_room_userRooms hn, join_room_memOf hn]
    have hur : userRooms S n0 = urec.rooms := by simp [userRooms, hn]
    by_cases hu : u = n0 <;> by_cases hr : r = r0
    · simp [hu, hr]
    · rw [if_pos hu, if_neg hr, hu]
      rw [mem_insertS]
      have := hInv n0 r
      rw [hur] at this
      rw [← this]
      constructor
      · rintro (h1 | h2)
        · exact absurd h1 hr
        · exact h2
      · exact fun h => Or.inr h
    · rw [if_neg hu, if_pos hr, hr]
      rw [mem_insertS]
      rw [← hInv u r0]
      constructor
      · exact fun h => Or.inr h
      · rintro (h1 | h2)
        · exact absurd h1 hu
        · exact h2
    · rw [if_neg hu, if_neg hr]
      exact hInv u r

theorem join_room_wf {S : ServerState} {r0 n0 : String} (hwf : WF S) :
    WF (S.join_room r0 n0).1 := by
  rcases hn : getK S.users n0 with _ | urec
  · rw [join_room_eq_nouser hn]
    exact hwf
  · rw [join_room_eq_ok hn]
    constructor
    · intro u rec hg
      rw [getK_insertK] at hg
      by_cases hu : u = n0
      · rw [if_pos hu] at hg
        cases hg
        exact nodup_insertS (hwf.1 n0 urec hn)
      · rw [if_neg hu] at hg
        exact hwf.1 u rec hg
    · intro r room hg
      rw [getK_insertK] at hg
      by_cases hr : r = r0
      · rw [if_pos hr] at hg
        cases hg
        rcases hr0 : getK S.rooms r0 with _ | room0
        · simp only [memOf, hr0]
          exact nodup_insertS List.nodup_nil
        · simp only [memOf, hr0]
          exact nodup_insertS (hwf.2 r0 room0 hr0)
      · rw [if_neg hr] at hg
        exact hwf.2 r room hg

theorem join_room_noempty {S : ServerState} {r0 n0 : String}
    (h : NoEmptyRooms S) : NoEmptyRooms (S.join_room r0 n0).1 := by
  rcases hn : getK S.users n0 with _ | urec
  · rw [join_room_eq_nouser hn]
    exact h
  · rw [join_room_eq_ok hn]
    intro r room hg
    rw [getK_insertK] at hg
    by_cases hr : r = r0
    · rw [if_pos hr] at hg
      cases hg
      exact insertS_ne_nil
    · rw [if_neg hr] at hg
      exact h r room hg

theorem leave_room_eq_noroom {S : ServerState} {r0 n0 : String}
    (hr : getK S.rooms r0 = none) :
    S.leave_room r0 n0 = (S, some (.RoomUnknown r0)) := by
  simp [ServerState.leave_room, hr]

theorem leave_room_eq_notmem {S : ServerState} {r0 n0 : String} {room : Room}
    (hr : getK S.rooms r0 = some room) (hm : n0 ∉ room.users) :
    S.leave_room r0 n0 = (S, some (.UserNotInRoom n0 r0)) := by
  simp [ServerState.leave_room, hr, hm]

theorem leave_room_eq_ok_some {S : ServerState} {r0 n0 : String} {room : Room} {u0 : User}
    (hr : getK S.rooms r0 = some room) (hm : n0 ∈ room.users)
    (hg : getK S.users n0 = some u0) :
    S.leave_room r0 n0 =
      (⟨insertK S.users n0 { u0 with rooms := removeS r0 u0.rooms },
        if removeS n0 room.users = [] then eraseK S.rooms r0
        else insertK S.rooms r0 ⟨removeS n0 room.users⟩⟩, none) := by
  simp [ServerState.leave_room, hr, hm, hg]

theorem leave_room_eq_ok_none {S : ServerState} {r0 n0 : String} {room : Room}
    (hr : getK S.rooms r0 = some room) (hm : n0 ∈ room.users)
    (hg : getK S.users n0 = none) :
    S.leave_room r0 n0 =
      (⟨S.users,
        if removeS n0 room.users = [] then eraseK S.rooms r0
        else insertK S.rooms r0 ⟨removeS n0 room.users⟩⟩, none) := by
  simp [ServerState.leave_room, hr, hm, hg]

theorem leave_room_rooms_eq {S : ServerState} {r0 n0 : String} {room : Room}
    (hr : getK S.rooms r0 = some room) (hm : n0 ∈ room.users) :
    (S.leave_room r0 n0).1.rooms =
      if removeS n0 room.users = [] then eraseK S.rooms r0
      else insertK S.rooms r0 ⟨removeS n0 room.users⟩ := by
  rcases hg : getK S.users n0 with _ | u0
  · rw [leave_room_eq_ok_none hr hm hg]
  · rw [leave_room_eq_ok_some hr hm hg]

theorem leave_room_memOf {S : ServerState} {r0 n0 : String} {room : Room}
    (hr : getK S.rooms r0 = some room) (hm : n0 ∈ room.users) (r : String) :
    memOf (S.leave_room r0 n0).1 r =
      if r = r0 then removeS n0 (memOf S r0) else memOf S r := by
  have hrw : memOf (S.leave_room r0 n0).1 r =
      (match getK ((S.leave_room r0 n0).1.rooms) r with
       | some rm => rm.users
       | none => []) := rfl
  rw [hrw, leave_room_rooms_eq hr hm]
  have hm0 : memOf S r0 = room.users := by simp [memOf, hr]
  by_cases h : r = r0
  · subst h
    by_cases he : removeS n0 room.users = []
    · rw [if_pos he, if_pos rfl]
      simp [getK_eraseK, hm0, he]
    · rw [if_neg he, if_pos rfl]
      simp [getK_insertK, hm0]
  · by_cases he : removeS n0 room.users = []
    · rw [if_pos he, if_neg h]
      simp [getK_eraseK, h, memOf]
    · rw [if_neg he, if_neg h]
      simp [getK_insertK, h, memOf]

theorem leave_room_userRooms {S : ServerState} {r0 n0 : String} {room : Room}
    (hr : getK S.rooms r0 = some room) (hm : n0 ∈ room.users) (u : String) :
    userRooms (S.leave_room r0 n0).1 u =
      if u = n0 then removeS r0 (userRooms S n0) else userRooms S u := by
  rcases hg : getK S.users n0 with _ | u0
  · rw [leave_room_eq_ok_none hr hm hg]
    by_cases hu : u = n0
    · subst hu
      simp [userRooms, hg, removeS]
    · simp [userRooms, hu]
  · rw [leave_room_eq_ok_some hr hm hg]
    by_cases hu : u = n0
    · subst hu
      simp [userRooms, getK_insertK, hg]
    · simp [userRooms, getK_insertK, hu]

theorem leave_room_inv {S : ServerState} {r0 n0 : String} (hInv : Inv S) :
    Inv (S.leave_room r0 n0).1 := by
  rcases hr : getK S.rooms r0 with _ | room
  · rw [leave_room_eq_noroom hr]
    exact hInv
  · by_cases hm : n0 ∈ room.users
    · intro u r
      rw [leave_room_userRooms hr hm, leave_room_memOf hr hm]
      by_cases hu : u = n0 <;> by_cases hrr : r = r0
      · subst hu; subst hrr
        simp
      · subst hu
        rw [if_pos rfl, if_neg hrr, mem_removeS]
        constructor
        · rintro ⟨h1, _⟩
          exact (hInv u r).mp h1
        · intro h
          exact ⟨(hInv u r).mpr h, hrr⟩
      · subst hrr
        rw [if_neg hu, if_pos rfl, mem_removeS]
        constructor
        · intro h
          exact ⟨(hInv u r).mp h, hu⟩
        · rintro ⟨h1, _⟩
          exact (hInv u r).mpr h1
      · rw [if_neg hu, if_neg hrr]
        exact hInv u r
    · rw [leave_room_eq_notmem hr hm]
      exact hInv

theorem leave_room_wf {S : ServerState} {r0 n0 : String} (hwf : WF S) :
    WF (S.leave_room r0 n0).1 := by
  rcases hr : getK S.rooms r0 with _ | room
  · rw [leave_room_eq_noroom hr]
    exact hwf
  · by_cases hm : n0 ∈ room.users
    · constructor
      · intro u rec hg
        rcases hg0 : getK S.users n0 with _ | u0
        · rw [leave_room_eq_ok_none hr hm hg0] at hg
          exact hwf.1 u rec hg
        · rw [leave_room_eq_ok_some hr hm hg0] at hg
          simp only at hg
          rw [getK_insertK] at hg
          by_cases hu : u = n0
          · rw [if_pos hu] at hg
            cases hg
            exact nodup_removeS (hwf.1 n0 u0 hg0)
          · rw [if_neg hu] at hg
            exact hwf.1 u rec hg
      · intro r rm hg
        have hrw : getK (S.leave_room r0 n0).1.rooms r = some rm := hg
        rw [leave_room_rooms_eq hr hm] at hrw
        by_cases he : removeS n0 room.users = []
        · rw [if_pos he, getK_eraseK] at hrw
          by_cases h : r = r0
          · rw [if_pos h] at hrw
            cases hrw
          · rw [if_neg h] at hrw
            exact hwf.2 r rm hrw
        · rw [if_neg he, getK_insertK] at hrw
          by_cases h : r = r0
          · rw [if_pos h] at hrw
            cases hrw
            exact nodup_removeS (hwf.2 r0 room hr)
          · rw [if_neg h] at hrw
            exact hwf.2 r rm hrw
    · rw [leave_room_eq_notmem hr hm]
      exact hwf

theorem leave_room_noempty {S : ServerState} {r0 n0 : String} (h : NoEmptyRooms S) :
    NoEmptyRooms (S.leave_room r0 n0).1 := by
  rcases hr : getK S.rooms r0 with _ | room
  · rw [leave_room_eq_noroom hr]
    exact h
  · by_cases hm : n0 ∈ room.users
    · intro r rm hg
      have hrw : getK (S.leave_room r0 n0).1.rooms r = some rm := hg
      rw [leave_room_rooms_eq hr hm] at hrw
      by_cases he : removeS n0 room.users = []
      · rw [if_pos he, getK_eraseK] at hrw
        by_cases hq : r = r0
        · rw [if_pos hq] at hrw
          cases hrw
        · rw [if_neg hq] at hrw
          exact h r rm hrw
      · rw [if_neg he, getK_insertK] at hrw
        by_cases hq : r = r0
        · rw [if_pos hq] at hrw
          cases hrw
          exact he
        · rw [if_neg hq] at hrw
          exact h r rm hrw
    · rw [leave_room_eq_notmem hr hm]
      exact h

/-- Full run of the remove_user loop: when the departing name is already
out of the users map, the listed rooms are pairwise distinct, and the name
is a member of each listed room, every leave succeeds and the final state
is described pointwise. -/
theorem leaveRooms_spec {n0 : String} :
    ∀ (L : List String) (T : ServerState),
      getK T.users n0 = none →
      L.Nodup →
      (∀ r ∈ L, n0 ∈ memOf T r) →
      ∃ T', leaveRooms T n0 L = (T', none) ∧
        T'.users = T.users ∧
        (∀ r, r ∉ L → getK T'.rooms r = getK T.rooms r) ∧
        (∀ r ∈ L, ∃ room, getK T.rooms r = some room ∧ n0 ∈ room.users ∧
          ((removeS n0 room.users = [] ∧ getK T'.rooms r = none) ∨
           (removeS n0 room.users ≠ [] ∧
             getK T'.rooms r = some ⟨removeS n0 room.users⟩))) := by
  intro L
  induction L with
  | nil =>
    intro T hT _ _
    exact ⟨T, rfl, rfl, fun r _ => rfl, by simp⟩
  | cons r rest ih =>
    intro T hT hnd hmem
    have hmr : n0 ∈ memOf T r := hmem r (by simp)
    rcases hgr : getK T.rooms r with _ | room
    · rw [memOf, hgr] at hmr
      simp at hmr
    · rw [memOf, hgr] at hmr
      have heq := leave_room_eq_ok_none hgr hmr hT
      have hstep : leaveRooms T n0 (r :: rest) = leaveRooms (T.leave_room r n0).1 n0 rest := by
        rw [leaveRooms]
        rw [heq]
      set T1 := (T.leave_room r n0).1 with hT1
      have husers1 : T1.users = T.users := by rw [hT1, heq]
      have hrooms1 : T1.rooms =
          if removeS n0 room.users = [] then eraseK T.rooms r
          else insertK T.rooms r ⟨removeS n0 room.users⟩ := by
        rw [hT1, heq]
      have hget1 : ∀ q, q ≠ r → getK T1.rooms q = getK T.rooms q := by
        intro q hq
        rw [hrooms1]
        by_cases he : removeS n0 room.users = []
        · rw [if_pos he, getK_eraseK, if_neg hq]
        · rw [if_neg he, getK_insertK, if_neg hq]
      have hnotmem : r ∉ rest := (List.nodup_cons.mp hnd).1
      have hnd1 : rest.Nodup := (List.nodup_cons.mp hnd).2
      have hmem1 : ∀ q ∈ rest, n0 ∈ memOf T1 q := by
        intro q hq
        have hqr : q ≠ r := fun hc => hnotmem (hc ▸ hq)
        rw [memOf, hget1 q hqr]
        exact hmem q (by simp [hq])
      have hT1u : getK T1.users n0 = none := by rw [husers1]; exact hT
      obtain ⟨T', hrun, hu', hout, hin⟩ := ih T1 hT1u hnd1 hmem1
      refine ⟨T', by rw [hstep, hrun], by rw [hu', husers1], ?_, ?_⟩
      · intro q hq
        have hq1 : q ∉ rest := fun hc => hq (by simp [hc])
        have hq2 : q ≠ r := fun hc => hq (by simp [hc])
        rw [hout q hq1, hget1 q hq2]
      · intro q hq
        rcases List.mem_cons.mp hq with hc | hc
        · subst hc
          refine ⟨room, hgr, hmr, ?_⟩
          have hfin : getK T'.rooms q = getK T1.rooms q := hout q hnotmem
          rw [hrooms1] at hfin
          by_cases he : removeS n0 room.users = []
          · rw [if_pos he, getK_eraseK, if_pos rfl] at hfin
            exact Or.inl ⟨he, hfin⟩
          · rw [if_neg he, getK_insertK, if_pos rfl] at hfin
            exact Or.inr ⟨he, hfin⟩
        · obtain ⟨room1, hg1, hm1, hres⟩ := hin q hc
          have hqr : q ≠ r := fun hcc => hnotmem (hcc ▸ hc)
          rw [hget1 q hqr] at hg1
          exact ⟨room1, hg1, hm1, hres⟩

theorem remove_user_eq_nouser {S : ServerState} {n : String}
    (hn : getK S.users n = none) :
    S.remove_user n = (S, some (.UserUnknown n)) := by
  simp [ServerState.remove_user, hn]

theorem remove_user_eq_some {S : ServerState} {n : String} {urec : User}
    (hn : getK S.users n = some urec) :
    S.remove_user n = leaveRooms { S with users := eraseK S.users n } n urec.rooms := by
  simp [ServerState.remove_user, hn]

/-- Characterization of a successful remove_user on a state satisfying the
membership invariants. -/
theorem remove_user_ok {S : ServerState} {u : String} {urec : User}
    (hInv : Inv S) (hwf : WF S) (hu : getK S.users u = some urec) :
    ∃ S', S.remove_user u = (S', none) ∧
      S'.users = eraseK S.users u ∧
      (∀ r, r ∉ urec.rooms → getK S'.rooms r = getK S.rooms r) ∧
      (∀ r ∈ urec.rooms, ∃ room, getK S.rooms r = some room ∧ u ∈ room.users ∧
        ((removeS u room.users = [] ∧ getK S'.rooms r = none) ∨
         (removeS u room.users ≠ [] ∧
           getK S'.rooms r = some ⟨removeS u room.users⟩))) := by
  have hT : getK (eraseK S.users u) u = none := by
    rw [getK_eraseK, if_pos rfl]
  have hnd : urec.rooms.Nodup := hwf.1 u urec hu
  have hm : ∀ r ∈ urec.rooms, u ∈ memOf { S with users := eraseK S.users u } r := by
    intro r hr
    have h1 : r ∈ userRooms S u := by rw [userRooms, hu]; exact hr
    exact (hInv u r).mp h1
  obtain ⟨T', h1, h2, h3, h4⟩ :=
    leaveRooms_spec urec.rooms { S with users := eraseK S.users u } hT hnd hm
  refine ⟨T', ?_, h2, h3, h4⟩
  rw [remove_user_eq_some hu]
  exact h1

theorem remove_user_inv {S : ServerState} {n : String} (hInv : Inv S) (hwf : WF S) :
    Inv (S.remove_user n).1 := by
  rcases hn : getK S.users n with _ | urec
  · rw [remove_user_eq_nouser hn]
    exact hInv
  · obtain ⟨S', heq, hu', hout, hin⟩ := remove_user_ok hInv hwf hn
    rw [heq]
    intro u r
    have hur : userRooms S' u = if u = n then [] else userRooms S u := by
      rw [userRooms, hu', getK_eraseK]
      by_cases h : u = n
      · rw [if_pos h, if_pos h]
      · rw [if_neg h, if_neg h, userRooms]
    by_cases hrL : r ∈ urec.rooms
    · obtain ⟨room, hg, hmem, hres⟩ := hin r hrL
      have hmem' : memOf S' r = removeS n (memOf S r) := by
        rw [memOf, memOf, hg]
        rcases hres with ⟨he, hnone⟩ | ⟨he, hsome⟩
        · rw [hnone, he]
        · rw [hsome]
      rw [hur, hmem']
      by_cases hu2 : u = n
      · subst hu2
        rw [if_pos rfl]
        simp
      · rw [if_neg hu2, mem_removeS]
        constructor
        · intro h
          exact ⟨(hInv u r).mp h, hu2⟩
        · rintro ⟨h1, _⟩
          exact (hInv u r).mpr h1
    · have hmem' : memOf S' r = memOf S r := by
        rw [memOf, memOf, hout r hrL]
      rw [hur, hmem']
      by_cases hu2 : u = n
      · subst hu2
        rw [if_pos rfl]
        simp only [List.not_mem_nil, false_iff]
        intro hc
        have h1 := (hInv u r).mpr hc
        rw [userRooms, hn] at h1
        exact hrL h1
      · rw [if_neg hu2]
        exact hInv u r

theorem remove_user_wf {S : ServerState} {n : String} (hInv : Inv S) (hwf : WF S) :
    WF (S.remove_user n).1 := by
  rcases hn : getK S.users n with _ | urec
  · rw [remove_user_eq_nouser hn]
    exact hwf
  · obtain ⟨S', heq, hu', hout, hin⟩ := remove_user_ok hInv hwf hn
    rw [heq]
    constructor
    · intro u rec hg
      rw [hu', getK_eraseK] at hg
      by_cases h : u = n
      · rw [if_pos h] at hg
        cases hg
      · rw [if_neg h] at hg
        exact hwf.1 u rec hg
    · intro r room hg
      by_cases hrL : r ∈ urec.rooms
      · obtain ⟨room0, hg0, hm0, hres⟩ := hin r hrL
        rcases hres with ⟨he, hnone⟩ | ⟨he, hsome⟩
        · rw [hg] at hnone
          cases hnone
        · rw [hg] at hsome
          cases hsome
          exact nodup_removeS (hwf.2 r room0 hg0)
      · rw [hout r hrL] at hg
        exact hwf.2 r room hg

theorem leaveRooms_noempty {n0 : String} :
    ∀ (L : List String) (T : ServerState), NoEmptyRooms T →
      NoEmptyRooms (leaveRooms T n0 L).1 := by
  intro L
  induction L with
  | nil =>
    intro T h
    exact h
  | cons r rest ih =>
    intro T h
    have h1 := @leave_room_noempty T r n0 h
    simp only [leaveRooms]
    rcases hstep : T.leave_room r n0 with ⟨T1, res⟩
    rw [hstep] at h1
    rcases res with _ | e
    · exact ih T1 h1
    · exact h1

theorem remove_user_noempty {S : ServerState} {n : String} (h : NoEmptyRooms S) :
    NoEmptyRooms (S.remove_user n).1 := by
  rcases hn : getK S.users n with _ | urec
  · rw [remove_user_eq_nouser hn]
    exact h
  · rw [remove_user_eq_some hn]
    exact leaveRooms_noempty urec.rooms { S with users := eraseK S.users n } h

theorem rename_user_eq_nouser {S : ServerState} {a b : String}
    (ha : getK S.users a = none) :
    S.rename_user a b = (S, some (.UserUnknown a)) := by
  simp [ServerState.rename_user, ha]

theorem rename_user_eq_some {S : ServerState} {a b : String} {urec : User}
    (ha : getK S.users a = some urec) :
    S.rename_user a b =
      (⟨insertK (eraseK S.users a) b urec,
        renameRooms S.rooms a b urec.rooms⟩, none) := by
  simp [ServerState.rename_user, ha]

/-- Full run of the rename_user loop over a duplicate-free list of rooms:
in each listed room that exists, the old name is removed and the new name
added; other rooms are untouched. -/
theorem renameRooms_spec {a b : String} :
    ∀ (L : List String) (R : List (String × Room)), L.Nodup →
      (∀ r, r ∉ L → getK (renameRooms R a b L) r = getK R r) ∧
      (∀ r ∈ L,
        (getK R r = none → getK (renameRooms R a b L) r = none) ∧
        (∀ room, getK R r = some room →
          getK (renameRooms R a b L) r = some ⟨insertS b (removeS a room.users)⟩)) := by
  intro L
  induction L with
  | nil =>
    intro R _
    exact ⟨fun r _ => rfl, by simp⟩
  | cons r rest ih =>
    intro R hnd
    have hnotmem : r ∉ rest := (List.nodup_cons.mp hnd).1
    have hnd1 : rest.Nodup := (List.nodup_cons.mp hnd).2
    rcases hgr : getK R r with _ | room
    · have hstep : renameRooms R a b (r :: rest) = renameRooms R a b rest := by
        simp [renameRooms, hgr]
      obtain ⟨hout, hin⟩ := ih R hnd1
      rw [hstep]
      constructor
      · intro q hq
        exact hout q (fun hc => hq (by simp [hc]))
      · intro q hq
        rcases List.mem_cons.mp hq with hc | hc
        · subst hc
          constructor
          · intro _
            rw [hout q hnotmem]
            exact hgr
          · intro room0 hg0
            rw [hgr] at hg0
            cases hg0
        · exact hin q hc
    · have hstep : renameRooms R a b (r :: rest) =
          renameRooms (insertK R r ⟨insertS b (removeS a room.users)⟩) a b rest := by
        simp [renameRooms, hgr]
      have hg1 : ∀ q, q ≠ r →
          getK (insertK R r ⟨insertS b (removeS a room.users)⟩) q = getK R q := by
        intro q hq
        rw [getK_insertK, if_neg hq]
      obtain ⟨hout, hin⟩ := ih (insertK R r ⟨insertS b (removeS a room.users)⟩) hnd1
      rw [hstep]
      constructor
      · intro q hq
        have hq1 : q ∉ rest := fun hc => hq (by simp [hc])
        have hq2 : q ≠ r := fun hc => hq (by simp [hc])
        rw [hout q hq1, hg1 q hq2]
      · intro q hq
        rcases List.mem_cons.mp hq with hc | hc
        · subst hc
          constructor
          · intro hg0
            rw [hgr] at hg0
            cases hg0
          · intro room0 hg0
            rw [hgr] at hg0
            cases hg0
            rw [hout q hnotmem, getK_insertK, if_pos rfl]
        · have hqr : q ≠ r := fun hcc => hnotmem (hcc ▸ hc)
          constructor
          · intro hg0
            exact (hin q hc).1 (by rw [hg1 q hqr]; exact hg0)
          · intro room0 hg0
            exact (hin q hc).2 room0 (by rw [hg1 q hqr]; exact hg0)

theorem rename_user_inv {S : ServerState} {a b : String} (hInv : Inv S) (hwf : WF S)
    (hb : getK S.users b = none) : Inv (S.rename_user a b).1 := by
  rcases ha : getK S.users a with _ | urec
  · rw [rename_user_eq_nouser ha]
    exact hInv
  · have hab : a ≠ b := fun hc => by rw [hc, hb] at ha; cases ha
    rw [rename_user_eq_some ha]
    obtain ⟨hout, hin⟩ := renameRooms_spec (a := a) (b := b) urec.rooms S.rooms
      (hwf.1 a urec ha)
    intro u r
    have hur : userRooms ⟨insertK (eraseK S.users a) b urec,
        renameRooms S.rooms a b urec.rooms⟩ u =
        if u = b then urec.rooms else if u = a then [] else userRooms S u := by
      rw [userRooms, getK_insertK, getK_eraseK]
      by_cases h1 : u = b
      · rw [if_pos h1, if_pos h1]
      · rw [if_neg h1, if_neg h1]
        by_cases h2 : u = a
        · rw [if_pos h2, if_pos h2]
        · rw [if_neg h2, if_neg h2, userRooms]
    rw [hur]
    by_cases hrL : r ∈ urec.rooms
    · have hroom : ∃ room, getK S.rooms r = some room ∧ a ∈ room.users := by
        have h1 : r ∈ userRooms S a := by rw [userRooms, ha]; exact hrL
        have h2 := (hInv a r).mp h1
        rw [memOf] at h2
        rcases hg : getK S.rooms r with _ | room
        · rw [hg] at h2
          simp at h2
        · rw [hg] at h2
          exact ⟨room, rfl, h2⟩
      obtain ⟨room, hg, hmem⟩ := hroom
      have hmem' : memOf ⟨insertK (eraseK S.users a) b urec,
          renameRooms S.rooms a b urec.rooms⟩ r = insertS b (removeS a room.users) := by
        rw [memOf]
        rw [(hin r hrL).2 room hg]
      rw [hmem']
      by_cases hu1 : u = b
      · subst hu1
        rw [if_pos rfl]
        simp [hrL]
      · rw [if_neg hu1]
        by_cases hu2 : u = a
        · subst hu2
          rw [if_pos rfl]
          simp only [List.not_mem_nil, false_iff, mem_insertS, mem_removeS]
          rintro (hc | ⟨_, hc⟩)
          · exact hab hc
          · exact hc rfl
        · rw [if_neg hu2, mem_insertS, mem_removeS]
          have hSm : u ∈ room.users ↔ u ∈ memOf S r := by rw [memOf, hg]
          constructor
          · intro h
            refine Or.inr ⟨?_, hu2⟩
            exact hSm.mpr ((hInv u r).mp h)
          · rintro (hc | ⟨h1, _⟩)
            · exact absurd hc hu1
            · exact (hInv u r).mpr (hSm.mp h1)
    · have hmem' : memOf ⟨insertK (eraseK S.users a) b urec,
          renameRooms S.rooms a b urec.rooms⟩ r = memOf S r := by
        rw [memOf, hout r hrL, memOf]
      rw [hmem']
      by_cases hu1 : u = b
      · subst hu1
        rw [if_pos rfl]
        constructor
        · intro hc
          exact absurd hc hrL
        · intro hc
          have h1 := (hInv u r).mpr hc
          rw [userRooms, hb] at h1
          cases h1
      · rw [if_neg hu1]
        by_cases hu2 : u = a
        · subst hu2
          rw [if_pos rfl]
          simp only [List.not_mem_nil, false_iff]
          intro hc
          have h1 := (hInv u r).mpr hc
          rw [userRooms, ha] at h1
          exact hrL h1
        · rw [if_neg hu2]
          exact hInv u r

theorem rename_user_wf {S : ServerState} {a b : String} (hwf : WF S) :
    WF (S.rename_user a b).1 := by
  rcases ha : getK S.users a with _ | urec
  · rw [rename_user_eq_nouser ha]
    exact hwf
  · rw [rename_user_eq_some ha]
    obtain ⟨hout, hin⟩ := renameRooms_spec (a := a) (b := b) urec.rooms S.rooms
      (hwf.1 a urec ha)
    constructor
    · intro u rec hg
      simp only at hg
      rw [getK_insertK] at hg
      by_cases h1 : u = b
      · rw [if_pos h1] at hg
        cases hg
        exact hwf.1 a urec ha
      · rw [if_neg h1, getK_eraseK] at hg
        by_cases h2 : u = a
        · rw [if_pos h2] at hg
          cases hg
        · rw [if_neg h2] at hg
          exact hwf.1 u rec hg
    · intro r room hg
      simp only at hg
      by_cases hrL : r ∈ urec.rooms
      · rcases hg0 : getK S.rooms r with _ | room0
        · rw [(hin r hrL).1 hg0] at hg
          cases hg
        · rw [(hin r hrL).2 room0 hg0] at hg
          cases hg
          exact nodup_insertS (nodup_removeS (hwf.2 r room0 hg0))
      · rw [hout r hrL] at hg
        exact hwf.2 r room hg

theorem renameRooms_noempty {a b : String} :
    ∀ (L : List String) (R : List (String × Room)),
      (∀ r room, getK R r = some room → room.users ≠ []) →
      ∀ r room, getK (renameRooms R a b L) r = some room → room.users ≠ [] := by
  intro L
  induction L with
  | nil =>
    intro R h
    exact h
  | cons q rest ih =>
    intro R h
    simp only [renameRooms]
    rcases hgq : getK R q with _ | room0
    · exact ih R h
    · apply ih
      intro r room hg
      rw [getK_insertK] at hg
      by_cases hr : r = q
      · rw [if_pos hr] at hg
        cases hg
        exact insertS_ne_nil
      · rw [if_neg hr] at hg
        exact h r room hg

theorem rename_user_noempty {S : ServerState} {a b : String} (h : NoEmptyRooms S) :
    NoEmptyRooms (S.rename_user a b).1 := by
  rcases ha : getK S.users a with _ | urec
  · rw [rename_user_eq_nouser ha]
    exact h
  · rw [rename_user_eq_some ha]
    intro r room hg
    exact renameRooms_noempty urec.rooms S.rooms h r room hg

theorem say_to_user_eq_nouser {S : ServerState} {f0 t0 msg : String}
    (h : getK S.users t0 = none) :
    S.say_to_user f0 t0 msg = some (S, some (.UserUnknown t0)) := by
  simp [ServerState.say_to_user, h]

theorem say_to_user_eq_closed {S : ServerState} {f0 t0 msg : String} {urec : User}
    (h : getK S.users t0 = some urec) (hc : urec.closed = true) :
    S.say_to_user f0 t0 msg = none := by
  simp [ServerState.say_to_user, h, User.send, hc]

theorem say_to_user_eq_open {S : ServerState} {f0 t0 msg : String} {urec : User}
    (h : getK S.users t0 = some urec) (hc : urec.closed = false) :
    S.say_to_user f0 t0 msg =
      some ({ S with
               users := insertK S.users t0
                 { urec with mailbox := urec.mailbox ++ [.SaidUser f0 msg] } }, none) := by
  simp [ServerState.say_to_user, h, User.send, hc]

/-- Full run of the say_to_room loop over a duplicate-free member list in
which every recipient with a user record has an open mailbox: every send
succeeds, the message is appended to the mailbox of every listed member
other than the sender, and every other record, including the sender, is
unchanged. -/
theorem sendRoomMsg_spec {user_name room_name message : String} :
    ∀ (L : List String) (users : List (String × User)), L.Nodup →
      (∀ m ∈ L, m ≠ user_name → ∀ urec, getK users m = some urec →
        urec.closed = false) →
      ∃ users', sendRoomMsg users user_name room_name message L = some users' ∧
        (∀ m, m ∉ L → getK users' m = getK users m) ∧
        (getK users' user_name = getK users user_name) ∧
        (∀ m ∈ L, m ≠ user_name →
          getK users' m = (getK users m).map
            (fun urec => { urec with mailbox :=
              urec.mailbox ++ [.SaidRoom room_name user_name message] })) := by
  intro L
  induction L with
  | nil =>
    intro users _ _
    exact ⟨users, rfl, fun m _ => rfl, rfl, by simp⟩
  | cons m rest ih =>
    intro users hnd hopen
    have hnotmem : m ∉ rest := (List.nodup_cons.mp hnd).1
    have hnd1 : rest.Nodup := (List.nodup_cons.mp hnd).2
    by_cases hm : m = user_name
    · have hstep : sendRoomMsg users user_name room_name message (m :: rest) =
          sendRoomMsg users user_name room_name message rest := by
        simp [sendRoomMsg, hm]
      obtain ⟨users', h1, h2, h3, h4⟩ := ih users hnd1
        (fun q hq hqu urec hg => hopen q (by simp [hq]) hqu urec hg)
      refine ⟨users', by rw [hstep]; exact h1, ?_, h3, ?_⟩
      · intro q hq
        exact h2 q (fun hc => hq (by simp [hc]))
      · intro q hq hqu
        rcases List.mem_cons.mp hq with hc | hc
        · subst hc
          exact absurd hm hqu
        · exact h4 q hc hqu
    · rcases hg : getK users m with _ | u
      · have hstep : sendRoomMsg users user_name room_name message (m :: rest) =
            sendRoomMsg users user_name room_name message rest := by
          simp [sendRoomMsg, hm, hg]
        obtain ⟨users', h1, h2, h3, h4⟩ := ih users hnd1
          (fun q hq hqu urec hgq => hopen q (by simp [hq]) hqu urec hgq)
        refine ⟨users', by rw [hstep]; exact h1, ?_, h3, ?_⟩
        · intro q hq
          exact h2 q (fun hc => hq (by simp [hc]))
        · intro q hq hqu
          rcases List.mem_cons.mp hq with hc | hc
          · subst hc
            rw [h2 q hnotmem, hg]
            rfl
          · exact h4 q hc hqu
      · have hc : u.closed = false := hopen m (by simp) hm u hg
        have hstep : sendRoomMsg users user_name room_name message (m :: rest) =
            sendRoomMsg (insertK users m
              { u with mailbox := u.mailbox ++ [.SaidRoom room_name user_name message] })
              user_name room_name message rest := by
          simp [sendRoomMsg, hm, hg, User.send, hc]
        have hg1 : ∀ q, q ≠ m →
            getK (insertK users m
              { u with mailbox := u.mailbox ++ [.SaidRoom room_name user_name message] }) q
            = getK users q := by
          intro q hq
          rw [getK_insertK, if_neg hq]
        obtain ⟨users', h1, h2, h3, h4⟩ := ih (insertK users m
            { u with mailbox := u.mailbox ++ [.SaidRoom room_name user_name message] }) hnd1
          (fun q hq hqu urec hgq => by
            have hqm : q ≠ m := fun hcc => hnotmem (hcc ▸ hq)
            rw [hg1 q hqm] at hgq
            exact hopen q (by simp [hq]) hqu urec hgq)
        refine ⟨users', by rw [hstep]; exact h1, ?_, ?_, ?_⟩
        · intro q hq
          have hq1 : q ∉ rest := fun hcc => hq (by simp [hcc])
          have hq2 : q ≠ m := fun hcc => hq (by simp [hcc])
          rw [h2 q hq1, hg1 q hq2]
        · rw [h3, hg1 user_name (fun hcc => hm hcc.symm)]
        · intro q hq hqu
          rcases List.mem_cons.mp hq with hcc | hcc
          · subst hcc
            rw [h2 q hnotmem, getK_insertK, if_pos rfl, hg]
            rfl
          · have hqm : q ≠ m := fun h5 => hnotmem (h5 ▸ hcc)
            rw [h4 q hcc hqu, hg1 q hqm]

theorem say_to_room_eq_noroom {S : ServerState} {u0 r0 msg : String}
    (h : getK S.rooms r0 = none) :
    S.say_to_room u0 r0 msg = some (S, some (.RoomUnknown r0)) := by
  simp [ServerState.say_to_room, h]

theorem say_to_room_eq_run {S : ServerState} {u0 r0 msg : String} {room : Room}
    (h : getK S.rooms r0 = some room) :
    S.say_to_room u0 r0 msg =
      match sendRoomMsg S.users u0 r0 msg room.users with
      | some users' => some ({ S with users := users' }, none)
      | none => none := by
  simp [ServerState.say_to_room, h]

/-- All the membership invariants hold in every state reachable by
registry operations whose renames have a fresh target name. -/
theorem checked_inv_wf {S : ServerState} (h : ReachableChecked S) : Inv S ∧ WF S := by
  induction h with
  | init =>
    constructor
    · intro u r
      simp [userRooms, memOf, ServerState.new, getK]
    · constructor <;> intro x y hg <;> simp [ServerState.new, getK] at hg
  | add S n c _ ih => exact ⟨add_user_inv ih.1, add_user_wf ih.2⟩
  | remove S n _ ih => exact ⟨remove_user_inv ih.1 ih.2, remove_user_wf ih.1 ih.2⟩
  | join S r n _ ih => exact ⟨join_room_inv ih.1, join_room_wf ih.2⟩
  | leave S r n _ ih => exact ⟨leave_room_inv ih.1, leave_room_wf ih.2⟩
  | rename S a b _ hb ih => exact ⟨rename_user_inv ih.1 ih.2 hb, rename_user_wf ih.2⟩

/-- Soundness of the executable well-formedness check. -/
theorem wfCheckB_sound {S : ServerState} (h : wfCheckB S = true) : WF S := by
  unfold wfCheckB at h
  rw [Bool.and_eq_true] at h
  obtain ⟨h1, h2⟩ := h
  rw [List.all_eq_true] at h1 h2
  constructor
  · intro u rec hgu
    have := h1 _ (getK_mem hgu)
    simpa using this
  · intro r room hgr
    have := h2 _ (getK_mem hgr)
    simpa using this

/-! Parser lemmas: splitting on spaces and rejoining, and facts about the
name and room shapes. -/

theorem splitSp_ne_nil (l : Str) : splitSp l ≠ [] := by
  induction l with
  | nil => simp [splitSp]
  | cons c rest ih =>
    by_cases hc : c = ' '
    · simp [splitSp, hc]
    · simp only [splitSp, if_neg hc]
      rcases h : splitSp rest with _ | ⟨p, ps⟩
      · simp
      · simp

theorem splitSp_no_sp {l : Str} (h : ' ' ∉ l) : splitSp l = [l] := by
  induction l with
  | nil => rfl
  | cons c rest ih =>
    have hc : ¬(c = ' ') := fun hcc => h (by simp [hcc])
    have h2 : ' ' ∉ rest := fun hcc => h (by simp [hcc])
    simp only [splitSp, if_neg hc, ih h2]

theorem splitSp_cons_of_ne (c : Char) (l : Str) (hc : ¬(c = ' ')) :
    splitSp (c :: l) =
      match splitSp l with
      | [] => [[c]]
      | p :: ps => (c :: p) :: ps := by
  simp only [splitSp, if_neg hc]

theorem joinSp_single (p : Str) : joinSp [p] = p := rfl

theorem joinSp_cons2 (p q : Str) (ps : List Str) :
    joinSp (p :: q :: ps) = p ++ ' ' :: joinSp (q :: ps) := rfl

theorem splitSp_append {xs ys : Str} (h : ' ' ∉ xs) :
    splitSp (xs ++ ' ' :: ys) = xs :: splitSp ys := by
  induction xs with
  | nil => simp [splitSp]
  | cons c rest ih =>
    have hc : ¬(c = ' ') := fun hcc => h (by simp [hcc])
    have h2 : ' ' ∉ rest := fun hcc => h (by simp [hcc])
    rw [List.cons_append, splitSp_cons_of_ne c _ hc, ih h2]

theorem joinSp_splitSp (l : Str) : joinSp (splitSp l) = l := by
  induction l with
  | nil => rfl
  | cons c rest ih =>
    by_cases hc : c = ' '
    · subst hc
      rcases h : splitSp rest with _ | ⟨p, ps⟩
      · exact absurd h (splitSp_ne_nil rest)
      · rw [h] at ih
        have hs : splitSp (' ' :: rest) = [] :: p :: ps := by
          simp [splitSp, h]
        rw [hs, joinSp_cons2, List.nil_append, ih]
    · rcases h : splitSp rest with _ | ⟨p, ps⟩
      · exact absurd h (splitSp_ne_nil rest)
      · rw [h] at ih
        have hs : splitSp (c :: rest) = (c :: p) :: ps := by
          rw [splitSp_cons_of_ne c rest hc, h]
        rw [hs]
        rcases ps with _ | ⟨q, ps1⟩
        · rw [joinSp_single] at ih
          rw [joinSp_single, ih]
        · rw [joinSp_cons2] at ih
          rw [joinSp_cons2, List.cons_append, ih]

theorem nameMatch_parts {s : Str} (h : nameMatch s = true) :
    ∃ rest, s = '@' :: rest ∧ rest.all wordChar = true := by
  rcases s with _ | ⟨c, rest⟩
  · simp [nameMatch] at h
  · simp only [nameMatch, Bool.and_eq_true, beq_iff_eq] at h
    obtain ⟨⟨⟨hc, hall⟩, _⟩, _⟩ := h
    subst hc
    exact ⟨rest, rfl, hall⟩

theorem roomMatch_parts {s : Str} (h : roomMatch s = true) :
    ∃ rest, s = '#' :: rest ∧ rest.all wordChar = true := by
  rcases s with _ | ⟨c, rest⟩
  · simp [roomMatch] at h
  · simp only [roomMatch, Bool.and_eq_true, beq_iff_eq] at h
    obtain ⟨⟨⟨hc, hall⟩, _⟩, _⟩ := h
    subst hc
    exact ⟨rest, rfl, hall⟩

theorem nameMatch_no_sp {s : Str} (h : nameMatch s = true) : ' ' ∉ s := by
  obtain ⟨rest, rfl, hall⟩ := nameMatch_parts h
  intro hmem
  rcases List.mem_cons.mp hmem with hc | hc
  · exact absurd hc (by decide)
  · rw [List.all_eq_true] at hall
    exact absurd (hall ' ' hc) (by decide)

theorem roomMatch_no_sp {s : Str} (h : roomMatch s = true) : ' ' ∉ s := by
  obtain ⟨rest, rfl, hall⟩ := roomMatch_parts h
  intro hmem
  rcases List.mem_cons.mp hmem with hc | hc
  · exact absurd hc (by decide)
  · rw [List.all_eq_true] at hall
    exact absurd (hall ' ' hc) (by decide)

theorem roomMatch_of_nameMatch {s : Str} (h : nameMatch s = true) :
    roomMatch s = false := by
  obtain ⟨rest, rfl, _⟩ := nameMatch_parts h
  simp [roomMatch]

theorem parse_incoming_eq_pieces {input : Str} (h : ¬(input = [])) :
    parse_incoming input = parsePieces (splitSp input) := by
  unfold parse_incoming
  rw [if_neg h]

/-- Claim C6: parser round-trip.  For every valid incoming message (names
and rooms matching their regexes; the SAY payload is any characters on the
line), formatting the message and parsing the result yields exactly
Process of that message. -/
theorem parse_format_round_trip (m : IncomingMsg) (h : m.valid = true) :
    parse_incoming m.fmt = some (ParsedAction.Process m) := by
  cases m with
  | Name n =>
    have hv : nameMatch n = true := h
    have hns : ' ' ∉ n := nameMatch_no_sp hv
    rw [show (IncomingMsg.Name n).fmt = "NAME".data ++ ' ' :: n from rfl,
      parse_incoming_eq_pieces (by simp), splitSp_append (by decide),
      splitSp_no_sp hns]
    simp [parsePieces, hv]
  | Join r =>
    have hv : roomMatch r = true := h
    have hns : ' ' ∉ r := roomMatch_no_sp hv
    rw [show (IncomingMsg.Join r).fmt = "JOIN".data ++ ' ' :: r from rfl,
      parse_incoming_eq_pieces (by simp), splitSp_append (by decide),
      splitSp_no_sp hns]
    simp [parsePieces, hv]
  | Leave r =>
    have hv : roomMatch r = true := h
    have hns : ' ' ∉ r := roomMatch_no_sp hv
    rw [show (IncomingMsg.Leave r).fmt = "LEAVE".data ++ ' ' :: r from rfl,
      parse_incoming_eq_pieces (by simp), splitSp_append (by decide),
      splitSp_no_sp hns]
    simp [parsePieces, hv]
  | Users r =>
    have hv : roomMatch r = true := h
    have hns : ' ' ∉ r := roomMatch_no_sp hv
    rw [show (IncomingMsg.Users r).fmt = "USERS".data ++ ' ' :: r from rfl,
      parse_incoming_eq_pieces (by simp), splitSp_append (by decide),
      splitSp_no_sp hns]
    simp [parsePieces, hv]
  | SayRoom r t =>
    have hv : roomMatch r = true := h
    have hrs : ' ' ∉ r := roomMatch_no_sp hv
    rw [show (IncomingMsg.SayRoom r t).fmt = "SAY".data ++ ' ' :: (r ++ ' ' :: t) from rfl,
      parse_incoming_eq_pieces (by simp), splitSp_append (by decide),
      splitSp_append hrs]
    rcases hsp : splitSp t with _ | ⟨p, ps⟩
    · exact absurd hsp (splitSp_ne_nil t)
    · have ht : joinSp (p :: ps) = t := by
        rw [← hsp]
        exact joinSp_splitSp t
      rw [← ht]
      simp [parsePieces, hv]
  | SayUser n t =>
    have hv : nameMatch n = true := h
    have hr : roomMatch n = false := roomMatch_of_nameMatch hv
    have hns : ' ' ∉ n := nameMatch_no_sp hv
    rw [show (IncomingMsg.SayUser n t).fmt = "SAY".data ++ ' ' :: (n ++ ' ' :: t) from rfl,
      parse_incoming_eq_pieces (by simp), splitSp_append (by decide),
      splitSp_append hns]
    rcases hsp : splitSp t with _ | ⟨p, ps⟩
    · exact absurd hsp (splitSp_ne_nil t)
    · have ht : joinSp (p :: ps) = t := by
        rw [← hsp]
        exact joinSp_splitSp t
      rw [← ht]
      simp [parsePieces, hv, hr]
  | Rooms => decide
  | Quit => decide
  | Pong => decide

/-! Claim theorems. -/

/-- Claim C1: the specification says the parser is total and pure.  Purity
holds (the embedding is a function of the input alone), but totality fails
in the source: on the line SAY followed by two spaces and any text, the
piece after SAY is empty, neither regex matches, and the code unwraps the
first character of the empty piece, which panics (embedded as `none`).
The parser therefore does not return a ParsedAction on every input. -/
theorem parse_incoming_panic_on_empty_target :
    parse_incoming "SAY  x".data = none ∧
    ∀ s : Str, parse_incoming s = parse_incoming s :=
  ⟨by decide, fun _ => rfl⟩

/-- Claim C2: the specification says an enqueue to a closed mailbox is
silently discarded and the operation still returns Ok.  In the source both
say functions unwrap the send result, so a closed target mailbox panics
(embedded as `none`) instead: here a say to a closed user and a say to a
room containing a closed member both abort. -/
theorem say_closed_mailbox_panic :
    closedUserState.say_to_user "@aaa" "@bbb" "hi" = none ∧
    closedRoomState.say_to_room "@aaa" "#rrr" "hi" = none := by
  constructor
  · decide
  · decide

/-- Claim C3, counterexample: renaming a user onto a name that is already
taken silently overwrites the record of the target user, so bidirectional
membership is not an invariant of arbitrary operation sequences.  After
add aaa, add bbb, join rrr bbb, rename aaa to bbb, the name bbb is a
member of room rrr but rrr is not on the record of bbb. -/
theorem bidirectional_membership_cex :
    Reachable renameCollisionState ∧ ¬ Inv renameCollisionState := by
  constructor
  · exact Reachable.rename _ "@aaa" "@bbb"
      (Reachable.join _ "#rrr" "@bbb"
        (Reachable.add _ "@bbb" false
          (Reachable.add _ "@aaa" false Reachable.init)))
  · intro hInv
    have h2 : "@bbb" ∈ memOf renameCollisionState "#rrr" := by decide
    have h3 := (hInv "@bbb" "#rrr").mpr h2
    have h4 : userRooms renameCollisionState "@bbb" = [] := by decide
    rw [h4] at h3
    simp at h3

/-- Claim C3 (amended): bidirectional membership is an invariant of every
sequence of registry operations from the empty registry in which every
rename has a target name not already in the users map (the duplicate-
target check that the specification prescribes): for every user u and room
r, r is on the record of u exactly when r is a room and u is among its
members. -/
theorem bidirectional_membership {S : ServerState} (h : ReachableChecked S) :
    Inv S :=
  (checked_inv_wf h).1

/-- Witness for the amended claim C3 at a concrete checked sequence with a
rename onto a fresh name. -/
theorem bidirectional_membership_w : Inv checkedRenameState :=
  bidirectional_membership
    (ReachableChecked.rename _ "@robert" "@littleb1t"
      (ReachableChecked.join _ "#testroom" "@robert"
        (ReachableChecked.add _ "@robert" false ReachableChecked.init))
      (by decide))

/-- Claim C4: starting from the empty registry, after any sequence of
registry operations every room present in the rooms map has a non-empty
member set. -/
theorem no_empty_rooms {S : ServerState} (h : Reachable S) : NoEmptyRooms S := by
  induction h with
  | init =>
    intro r room hg
    simp [ServerState.new, getK] at hg
  | add S n c _ ih => exact add_user_noempty ih
  | remove S n _ ih => exact remove_user_noempty ih
  | join S r n _ ih => exact join_room_noempty ih
  | leave S r n _ ih => exact leave_room_noempty ih
  | rename S a b _ ih => exact rename_user_noempty ih

/-- Witness for claim C4 at a concrete reachable state. -/
theorem no_empty_rooms_w : NoEmptyRooms exState1 :=
  no_empty_rooms
    (Reachable.join _ "#testroom" "@robert"
      (Reachable.add _ "@robert" false Reachable.init))

theorem removeS_eq_nil_of_only {l : List String} {u : String}
    (h : ∀ x ∈ l, x = u) : removeS u l = [] := by
  rw [removeS, List.filter_eq_nil_iff]
  intro x hx
  simp [h x hx]

/-- Claim C5, counterexample: rename does not check whether the target
name is taken.  Here aaa exists and is in no room, bbb is in room rrr,
and rename aaa to bbb succeeds; afterwards bbb is a member of room rrr,
which aaa was not in, so the renamed user is not a member of exactly the
rooms the old user was in. -/
theorem rename_preserves_rooms_cex :
    (getK preRenameState.users "@aaa").isSome ∧
    (preRenameState.rename_user "@aaa" "@bbb").2 = none ∧
    userRooms preRenameState "@aaa" = [] ∧
    "@bbb" ∈ memOf (preRenameState.rename_user "@aaa" "@bbb").1 "#rrr" :=
  ⟨by decide, by decide, by decide, by decide⟩

/-- Claim C5 (amended): on a registry state satisfying the membership
invariants (with the duplicate-free set embedding) in which user a exists
and user b does not, rename succeeds, b receives exactly the record of a
(its room set and its mailbox sender), a is absent from the users map and
from every room, and b is a member of exactly the rooms a was in. -/
theorem rename_preserves_rooms {S : ServerState} {a b : String} {urec : User}
    (hInv : Inv S) (hwf : WF S)
    (ha : getK S.users a = some urec) (hb : getK S.users b = none) :
    (S.rename_user a b).2 = none ∧
    getK (S.rename_user a b).1.users b = some urec ∧
    getK (S.rename_user a b).1.users a = none ∧
    (∀ r room, getK (S.rename_user a b).1.rooms r = some room → a ∉ room.users) ∧
    (∀ r, (∃ room, getK (S.rename_user a b).1.rooms r = some room ∧ b ∈ room.users)
        ↔ r ∈ urec.rooms) := by
  have hab : ¬(a = b) := fun hc => by rw [hc, hb] at ha; cases ha
  obtain ⟨hout, hin⟩ := renameRooms_spec (a := a) (b := b) urec.rooms S.rooms
    (hwf.1 a urec ha)
  have hU : (S.rename_user a b).1.users = insertK (eraseK S.users a) b urec := by
    rw [rename_user_eq_some ha]
  have hR : (S.rename_user a b).1.rooms = renameRooms S.rooms a b urec.rooms := by
    rw [rename_user_eq_some ha]
  have h2 : (S.rename_user a b).2 = none := by
    rw [rename_user_eq_some ha]
  refine ⟨h2, ?_, ?_, ?_, ?_⟩
  · rw [hU, getK_insertK, if_pos rfl]
  · rw [hU, getK_insertK, if_neg hab, getK_eraseK, if_pos rfl]
  · intro r room hg
    rw [hR] at hg
    by_cases hrL : r ∈ urec.rooms
    · rcases hg0 : getK S.rooms r with _ | room0
      · rw [(hin r hrL).1 hg0] at hg
        cases hg
      · rw [(hin r hrL).2 room0 hg0] at hg
        cases hg
        intro hmem
        rcases mem_insertS.mp hmem with hc | hc
        · exact hab hc
        · exact (mem_removeS.mp hc).2 rfl
    · rw [hout r hrL] at hg
      intro hmem
      have h1 : a ∈ memOf S r := by rw [memOf, hg]; exact hmem
      have h3 := (hInv a r).mpr h1
      rw [userRooms, ha] at h3
      exact hrL h3
  · intro r
    simp only [hR]
    constructor
    · rintro ⟨room, hg, hbm⟩
      by_cases hrL : r ∈ urec.rooms
      · exact hrL
      · rw [hout r hrL] at hg
        have h1 : b ∈ memOf S r := by rw [memOf, hg]; exact hbm
        have h3 := (hInv b r).mpr h1
        rw [userRooms, hb] at h3
        cases h3
    · intro hrL
      have h1 : r ∈ userRooms S a := by rw [userRooms, ha]; exact hrL
      have h3 := (hInv a r).mp h1
      rw [memOf] at h3
      rcases hg0 : getK S.rooms r with _ | room0
      · rw [hg0] at h3
        simp at h3
      · refine ⟨⟨insertS b (removeS a room0.users)⟩, (hin r hrL).2 room0 hg0, ?_⟩
        exact mem_insertS.mpr (Or.inl rfl)

/-- Witness for the amended claim C5 at a concrete state. -/
theorem rename_preserves_rooms_w :
    (exState1.rename_user "@robert" "@littleb1t").2 = none ∧
    getK (exState1.rename_user "@robert" "@littleb1t").1.users "@littleb1t"
      = some ⟨false, [], ["#testroom"]⟩ ∧
    getK (exState1.rename_user "@robert" "@littleb1t").1.users "@robert" = none ∧
    (∀ r room, getK (exState1.rename_user "@robert" "@littleb1t").1.rooms r = some room →
      "@robert" ∉ room.users) ∧
    (∀ r, (∃ room,
        getK (exState1.rename_user "@robert" "@littleb1t").1.rooms r = some room ∧
        "@littleb1t" ∈ room.users)
      ↔ r ∈ (User.mk false [] ["#testroom"]).rooms) :=
  rename_preserves_rooms (invCheckB_sound (by decide)) (wfCheckB_sound (by decide))
    (by decide) (by decide)

/-- Claim C8: on a registry state satisfying the membership invariants,
removing an existing user succeeds, leaves the user absent from the users
map and from the member set of every room, and deletes every room whose
only member it was; removing an unknown user fails with UserUnknown and
leaves the state unchanged. -/
theorem remove_cascades {S : ServerState} {u : String} (hInv : Inv S) (hwf : WF S) :
    (∀ urec, getK S.users u = some urec →
      (S.remove_user u).2 = none ∧
      getK (S.remove_user u).1.users u = none ∧
      (∀ r room, getK (S.remove_user u).1.rooms r = some room → u ∉ room.users) ∧
      (∀ r room, getK S.rooms r = some room → u ∈ room.users →
        (∀ x ∈ room.users, x = u) → getK (S.remove_user u).1.rooms r = none)) ∧
    (getK S.users u = none → S.remove_user u = (S, some (.UserUnknown u))) := by
  constructor
  · intro urec hu
    obtain ⟨S2, heq, hu2, hout, hin⟩ := remove_user_ok hInv hwf hu
    rw [heq]
    refine ⟨rfl, ?_, ?_, ?_⟩
    · rw [hu2, getK_eraseK, if_pos rfl]
    · intro r room hg
      by_cases hrL : r ∈ urec.rooms
      · obtain ⟨room0, hg0, hm0, hres⟩ := hin r hrL
        rcases hres with ⟨he, hnone⟩ | ⟨he, hsome⟩
        · rw [hg] at hnone
          cases hnone
        · rw [hg] at hsome
          cases hsome
          exact not_mem_removeS
      · rw [hout r hrL] at hg
        intro hc
        have h1 : u ∈ memOf S r := by rw [memOf, hg]; exact hc
        have h3 := (hInv u r).mpr h1
        rw [userRooms, hu] at h3
        exact hrL h3
    · intro r room hg hmem honly
      have hrL : r ∈ urec.rooms := by
        have h1 : u ∈ memOf S r := by rw [memOf, hg]; exact hmem
        have h3 := (hInv u r).mpr h1
        rwa [userRooms, hu] at h3
      obtain ⟨room0, hg0, hm0, hres⟩ := hin r hrL
      rw [hg] at hg0
      cases hg0
      have hempty : removeS u room.users = [] := removeS_eq_nil_of_only honly
      rcases hres with ⟨_, hnone⟩ | ⟨he, _⟩
      · exact hnone
      · exact absurd hempty he
  · intro hu
    exact remove_user_eq_nouser hu

/-- Witness for claim C8 at a concrete state. -/
theorem remove_cascades_w :
    ((exState1.remove_user "@robert").2 = none ∧
      getK (exState1.remove_user "@robert").1.users "@robert" = none ∧
      (∀ r room, getK (exState1.remove_user "@robert").1.rooms r = some room →
        "@robert" ∉ room.users) ∧
      (∀ r room, getK exState1.rooms r = some room → "@robert" ∈ room.users →
        (∀ x ∈ room.users, x = "@robert") →
        getK (exState1.remove_user "@robert").1.rooms r = none)) ∧
    (getK exState1.users "@kelsey" = none →
      exState1.remove_user "@kelsey" = (exState1, some (.UserUnknown "@kelsey"))) :=
  ⟨(remove_cascades (invCheckB_sound (by decide)) (wfCheckB_sound (by decide))).1
      ⟨false, [], ["#testroom"]⟩ (by decide),
   (remove_cascades (invCheckB_sound (by decide)) (wfCheckB_sound (by decide))).2⟩

theorem pair_err_ne_none {X S2 : ServerState} {e : ServerError}
    (h : (X, (none : Option ServerError)) = (S2, some e)) : False := by
  have h1 := congrArg Prod.snd h
  simp at h1

theorem pair_err_fst {X S2 : ServerState} {e1 : Option ServerError} {e : ServerError}
    (h : (X, e1) = (S2, some e)) : S2 = X :=
  (congrArg Prod.fst h).symm

/-- Claim C9: on a registry state satisfying the membership invariants,
whenever a registry operation returns an error, the users map and the
rooms map are exactly as they were before the call.  (The member-list
query takes the state by shared reference, so its conjunct is immediate.)
The say operations can also abort on a closed mailbox; an abort is not an
error return and no state results from it. -/
theorem err_atomicity {S : ServerState} (hInv : Inv S) (hwf : WF S) :
    (∀ n u S2 e, S.add_user n u = (S2, some e) →
      S2.users = S.users ∧ S2.rooms = S.rooms) ∧
    (∀ n S2 e, S.remove_user n = (S2, some e) →
      S2.users = S.users ∧ S2.rooms = S.rooms) ∧
    (∀ r n S2 e, S.join_room r n = (S2, some e) →
      S2.users = S.users ∧ S2.rooms = S.rooms) ∧
    (∀ r n S2 e, S.leave_room r n = (S2, some e) →
      S2.users = S.users ∧ S2.rooms = S.rooms) ∧
    (∀ a b S2 e, S.rename_user a b = (S2, some e) →
      S2.users = S.users ∧ S2.rooms = S.rooms) ∧
    (∀ f t m S2 e, S.say_to_user f t m = some (S2, some e) →
      S2.users = S.users ∧ S2.rooms = S.rooms) ∧
    (∀ u r m S2 e, S.say_to_room u r m = some (S2, some e) →
      S2.users = S.users ∧ S2.rooms = S.rooms) ∧
    (∀ r e, S.users_of r = .error e → S.users = S.users ∧ S.rooms = S.rooms) := by
  refine ⟨?_, ?_, ?_, ?_, ?_, ?_, ?_, fun r e _ => ⟨rfl, rfl⟩⟩
  · intro n u S2 e hEq
    rcases hn : getK S.users n with _ | urec
    · rw [add_user_eq_none hn] at hEq
      exact (pair_err_ne_none hEq).elim
    · rw [add_user_eq_some hn] at hEq
      rw [pair_err_fst hEq]
      exact ⟨rfl, rfl⟩
  · intro n S2 e hEq
    rcases hn : getK S.users n with _ | urec
    · rw [remove_user_eq_nouser hn] at hEq
      rw [pair_err_fst hEq]
      exact ⟨rfl, rfl⟩
    · obtain ⟨S3, heq, -, -, -⟩ := remove_user_ok hInv hwf hn
      rw [heq] at hEq
      exact (pair_err_ne_none hEq).elim
  · intro r n S2 e hEq
    rcases hn : getK S.users n with _ | urec
    · rw [join_room_eq_nouser hn] at hEq
      rw [pair_err_fst hEq]
      exact ⟨rfl, rfl⟩
    · rw [join_room_eq_ok hn] at hEq
      exact (pair_err_ne_none hEq).elim
  · intro r n S2 e hEq
    rcases hr : getK S.rooms r with _ | room
    · rw [leave_room_eq_noroom hr] at hEq
      rw [pair_err_fst hEq]
      exact ⟨rfl, rfl⟩
    · by_cases hm : n ∈ room.users
      · rcases hg : getK S.users n with _ | u0
        · rw [leave_room_eq_ok_none hr hm hg] at hEq
          exact (pair_err_ne_none hEq).elim
        · rw [leave_room_eq_ok_some hr hm hg] at hEq
          exact (pair_err_ne_none hEq).elim
      · rw [leave_room_eq_notmem hr hm] at hEq
        rw [pair_err_fst hEq]
        exact ⟨rfl, rfl⟩
  · intro a b S2 e hEq
    rcases ha : getK S.users a with _ | urec
    · rw [rename_user_eq_nouser ha] at hEq
      rw [pair_err_fst hEq]
      exact ⟨rfl, rfl⟩
    · rw [rename_user_eq_some ha] at hEq
      exact (pair_err_ne_none hEq).elim
  · intro f t m S2 e hEq
    rcases hn : getK S.users t with _ | urec
    · rw [say_to_user_eq_nouser hn] at hEq
      injection hEq with hEq2
      rw [pair_err_fst hEq2]
      exact ⟨rfl, rfl⟩
    · rcases hc : urec.closed with _ | _
      · rw [say_to_user_eq_open hn hc] at hEq
        injection hEq with hEq2
        exact (pair_err_ne_none hEq2).elim
      · rw [say_to_user_eq_closed hn hc] at hEq
        cases hEq
  · intro u r m S2 e hEq
    rcases hr : getK S.rooms r with _ | room
    · rw [say_to_room_eq_noroom hr] at hEq
      injection hEq with hEq2
      rw [pair_err_fst hEq2]
      exact ⟨rfl, rfl⟩
    · rw [say_to_room_eq_run hr] at hEq
      rcases hrun : sendRoomMsg S.users u r m room.users with _ | users2
      · rw [hrun] at hEq
        cases hEq
      · rw [hrun] at hEq
        injection hEq with hEq2
        exact (pair_err_ne_none hEq2).elim

/-- Witness for claim C9: a failing leave_room call at a concrete state
leaves both maps unchanged. -/
theorem err_atomicity_w :
    (exState1.leave_room "#testroom" "@kelsey").1.users = exState1.users ∧
    (exState1.leave_room "#testroom" "@kelsey").1.rooms = exState1.rooms :=
  (err_atomicity (invCheckB_sound (by decide)) (wfCheckB_sound (by decide))).2.2.2.1
    "#testroom" "@kelsey" (exState1.leave_room "#testroom" "@kelsey").1
    (ServerError.UserNotInRoom "@kelsey" "#testroom") (by decide)

/-- Claim C7, counterexample: the room rrr exists and has the members aaa
and bbb, but the receiver of bbb has been dropped, so say_to_room from aaa
panics on the unwrapped send (embedded as `none`) and enqueues nothing,
instead of delivering to every member other than the sender. -/
theorem say_to_room_fanout_cex :
    (getK closedRoomState.rooms "#rrr").isSome ∧
    closedRoomState.say_to_room "@aaa" "#rrr" "hi" = none :=
  ⟨by decide, by decide⟩

/-- Claim C7 (amended): on a registry state satisfying the membership
invariants in which room r exists and every member of r other than the
sender has an open mailbox, say_to_room returns Ok, appends
SaidRoom(r, u, t) to the mailbox of every member of r other than u, and
leaves the record of u, hence its mailbox, unchanged (self-suppression);
users outside the room are also unchanged. -/
theorem say_to_room_fanout {S : ServerState} {u r t : String} {room : Room}
    (hInv : Inv S) (hwf : WF S) (hr : getK S.rooms r = some room)
    (hopen : ∀ m ∈ room.users, m ≠ u → optClosed (getK S.users m) = false) :
    ∃ S2, S.say_to_room u r t = some (S2, none) ∧
      getK S2.users u = getK S.users u ∧
      (∀ m ∈ room.users, m ≠ u → ∃ urec, getK S.users m = some urec ∧
        getK S2.users m = some { urec with mailbox :=
          urec.mailbox ++ [.SaidRoom r u t] }) ∧
      (∀ m, m ∉ room.users → getK S2.users m = getK S.users m) := by
  have hopen2 : ∀ m ∈ room.users, m ≠ u → ∀ urec, getK S.users m = some urec →
      urec.closed = false := by
    intro m hm hmu urec hg
    have h1 := hopen m hm hmu
    rw [hg] at h1
    exact h1
  obtain ⟨users2, h1, h2, h3, h4⟩ :=
    @sendRoomMsg_spec u r t room.users S.users (hwf.2 r room hr) hopen2
  refine ⟨{ S with users := users2 }, ?_, h3, ?_, h2⟩
  · rw [say_to_room_eq_run hr, h1]
  · intro m hm hmu
    have hmem : m ∈ memOf S r := by rw [memOf, hr]; exact hm
    have hur := (hInv m r).mpr hmem
    rcases hg : getK S.users m with _ | urec
    · rw [userRooms, hg] at hur
      cases hur
    · refine ⟨urec, rfl, ?_⟩
      have h5 := h4 m hm hmu
      rw [hg] at h5
      exact h5

/-- Witness for the amended claim C7 at a concrete state: dave speaks in a
room with kelsey and robert; both receive the message, dave does not. -/
theorem say_to_room_fanout_w :
    ∃ S2, sayRoomState.say_to_room "@dave" "#testroom" "hello" = some (S2, none) ∧
      getK S2.users "@dave" = getK sayRoomState.users "@dave" ∧
      (∀ m ∈ (Room.mk ["@dave", "@robert", "@kelsey"]).users, m ≠ "@dave" →
        ∃ urec, getK sayRoomState.users m = some urec ∧
          getK S2.users m = some { urec with mailbox :=
            urec.mailbox ++ [.SaidRoom "#testroom" "@dave" "hello"] }) ∧
      (∀ m, m ∉ (Room.mk ["@dave", "@robert", "@kelsey"]).users →
        getK S2.users m = getK sayRoomState.users m) :=
  say_to_room_fanout (invCheckB_sound (by decide)) (wfCheckB_sound (by decide))
    (by decide) (by decide)

/-- Claim C10, counterexample: the user aaa exists but its own receiver
has been dropped, so a self-directed say panics on the unwrapped send
(embedded as `none`) instead of returning Ok and enqueueing. -/
theorem say_to_user_self_cex :
    (getK selfClosedState.users "@aaa").isSome ∧
    selfClosedState.say_to_user "@aaa" "@aaa" "hi" = none :=
  ⟨by decide, by decide⟩

/-- Claim C10 (amended): when user u exists and its mailbox is open, a
self-directed say_to_user(u, u, t) returns Ok and appends SaidUser(u, t)
to the mailbox of u itself: there is no self-suppression for
user-directed messages. -/
theorem say_to_user_self {S : ServerState} {u t : String} {urec : User}
    (hu : getK S.users u = some urec) (hopen : urec.closed = false) :
    ∃ S2, S.say_to_user u u t = some (S2, none) ∧
      getK S2.users u = some { urec with mailbox :=
        urec.mailbox ++ [.SaidUser u t] } := by
  refine ⟨_, say_to_user_eq_open hu hopen, ?_⟩
  rw [getK_insertK, if_pos rfl]

/-- Witness for the amended claim C10 at a concrete state. -/
theorem say_to_user_self_w :
    ∃ S2, selfOpenState.say_to_user "@aaa" "@aaa" "hi" = some (S2, none) ∧
      getK S2.users "@aaa" = some ⟨false, [.SaidUser "@aaa" "hi"], []⟩ :=
  @say_to_user_self selfOpenState "@aaa" "hi" ⟨false, [], []⟩ (by decide) (by decide)

/-- Witness for claim C6 at a concrete valid message. -/
theorem parse_format_round_trip_w :
    (IncomingMsg.SayUser "@kelsey".data "hi kelsey :)".data).valid = true ∧
    parse_incoming (IncomingMsg.SayUser "@kelsey".data "hi kelsey :)".data).fmt
      = some (ParsedAction.Process
          (.SayUser "@kelsey".data "hi kelsey :)".data)) :=
  ⟨by decide, parse_format_round_trip _ (by decide)⟩

end Chat
